import Mathlib

/-!
Verification of the spiketools spatial core (spatial information and the
kinematics pipeline) against its specification.

The source module `spiketools/spatial/information.py` computes over numpy
float arrays, whose elements can be ordinary numbers, `+inf`, `-inf` or
`NaN`, and whose reductions (`np.nansum`) skip NaN entries.  We embed such
values as the type `NF` below: a finite rational payload or one of the
three special values.  Arithmetic follows IEEE-754 semantics for the
special values (`inf - inf = NaN`, `0 * inf = NaN`, `x / 0 = ±inf` for
`x ≠ 0` and `NaN` for `x = 0`, and so on), with the finite payload kept in
exact rational arithmetic (overflow and signed zero are not modelled; no
claim depends on them).  `np.log2` cannot keep a rational payload, so the
finite branch of `log2` is parametrised by an arbitrary function
`lg : ℚ → ℚ` standing for the real logarithm on positive finite inputs;
every theorem below holds for every such `lg`, and the special-value
branches (`log2 NaN = NaN`, `log2 (+inf) = +inf`, `log2 x = NaN` for
`x < 0`, `log2 0 = -inf`) are fixed to the IEEE behaviour.
-/

/-- A numpy floating-point scalar: a finite (exact rational) value, or one
of the IEEE special values `+inf`, `-inf`, `NaN`. -/
inductive NF where
  | fin (x : ℚ)
  | pinf
  | ninf
  | nan
deriving DecidableEq, Repr

namespace NF

/-- IEEE addition on `NF` (finite payloads exact). -/
def add : NF → NF → NF
  | fin x, fin y => fin (x + y)
  | fin _, pinf => pinf
  | fin _, ninf => ninf
  | fin _, nan => nan
  | pinf, fin _ => pinf
  | pinf, pinf => pinf
  | pinf, ninf => nan
  | pinf, nan => nan
  | ninf, fin _ => ninf
  | ninf, pinf => nan
  | ninf, ninf => ninf
  | ninf, nan => nan
  | nan, _ => nan

/-- IEEE multiplication on `NF` (`0 * ±inf = NaN`). -/
def mul : NF → NF → NF
  | fin x, fin y => fin (x * y)
  | fin x, pinf => if 0 < x then pinf else if x < 0 then ninf else nan
  | fin x, ninf => if 0 < x then ninf else if x < 0 then pinf else nan
  | fin _, nan => nan
  | pinf, fin y => if 0 < y then pinf else if y < 0 then ninf else nan
  | pinf, pinf => pinf
  | pinf, ninf => ninf
  | pinf, nan => nan
  | ninf, fin y => if 0 < y then ninf else if y < 0 then pinf else nan
  | ninf, pinf => ninf
  | ninf, ninf => pinf
  | ninf, nan => nan
  | nan, _ => nan

/-- IEEE division on `NF` (`x / 0 = ±inf` for `x ≠ 0`, `0 / 0 = NaN`,
`±inf / ±inf = NaN`, `x / ±inf = 0`; zeros are unsigned in this model). -/
def div : NF → NF → NF
  | fin x, fin y =>
      if y = 0 then (if 0 < x then pinf else if x < 0 then ninf else nan)
      else fin (x / y)
  | fin _, pinf => fin 0
  | fin _, ninf => fin 0
  | fin _, nan => nan
  | pinf, fin y => if 0 ≤ y then pinf else ninf
  | pinf, pinf => nan
  | pinf, ninf => nan
  | pinf, nan => nan
  | ninf, fin y => if 0 ≤ y then ninf else pinf
  | ninf, pinf => nan
  | ninf, ninf => nan
  | ninf, nan => nan
  | nan, _ => nan

/-- `np.log2`, with the finite positive branch delegated to an abstract
`lg : ℚ → ℚ` (the real base-2 logarithm is irrational, so it cannot be a
rational-valued function; no claim depends on its values). -/
def log2 (lg : ℚ → ℚ) : NF → NF
  | fin x => if 0 < x then fin (lg x) else if x = 0 then ninf else nan
  | pinf => pinf
  | ninf => nan
  | nan => nan

/-- The `np.nonzero` element test: `v != 0`.  NaN and the infinities
compare unequal to zero, so they count as nonzero. -/
def nonzero : NF → Bool
  | fin x => if x = 0 then false else true
  | _ => true

/-- True exactly on finite values. -/
def isFinite : NF → Bool
  | fin _ => true
  | _ => false

/-- True exactly on NaN. -/
def isNan : NF → Bool
  | nan => true
  | _ => false

/-- The summand `np.nansum` uses for one element: NaN counts as zero. -/
def denan : NF → NF
  | nan => fin 0
  | v => v

end NF

/-- `np.nansum` over a 1d array: sum with NaN entries treated as zero
(an intermediate `inf + -inf` still yields NaN, as in numpy). -/
def nansumL (l : List NF) : NF :=
  l.foldl (fun acc v => acc.add v.denan) (NF.fin 0)

/-- The per-bin contributions summed by `_compute_spatial_information`
(file `spiketools/spatial/information.py`, lines 79-91): for each
(spike, occupancy) pair, occupancy probability `occ / T`, normalised rate
`spike / occ`, and — for the bins the `np.nonzero` mask selects —
`occ_prob * norm * log2(norm / rate)`. -/
def infoTerms (lg : ℚ → ℚ) (rate T : NF) (pairs : List (NF × NF)) : List NF :=
  pairs.filterMap (fun so =>
    let op := so.2.div T
    let nr := so.1.div so.2
    if nr.nonzero then some ((op.mul nr).mul (NF.log2 lg (nr.div rate))) else none)

/-- `_compute_spatial_information(spike_map, occupancy)` from
`spiketools/spatial/information.py`: mean rate `nansum(spike)/nansum(occ)`
with an early `return 0.0` when that rate compares equal to `0.0`,
otherwise the nansum of the masked Skaggs contributions divided by the
rate.  Arrays are modelled as lists of elements (the claims under
verification are elementwise, so 1d/2d layout is immaterial). -/
def computeSpatialInformation (lg : ℚ → ℚ) (spike_map occupancy : List NF) : NF :=
  let T := nansumL occupancy
  let rate := (nansumL spike_map).div T
  if rate = NF.fin 0 then NF.fin 0
  else (nansumL (infoTerms lg rate T (spike_map.zip occupancy))).div rate


/-- The specification's own statement of the Skaggs information rate
(§4.1 steps 1-6), written over exact rationals for the regular case it
describes: rate `Σ spikes / Σ occupancy`, per-bin occupancy probability
`occ / Σ occupancy`, normalised rate `spike / occ`, and the sum of
`occ_prob · norm_rate · log2(norm_rate / rate)` over the bins with nonzero
normalised rate, divided by the rate.  The same abstract `lg` stands for
the base-2 logarithm on positive arguments. -/
def skaggsInformationSpec (lg : ℚ → ℚ) (s o : List ℚ) : ℚ :=
  let T := o.sum
  let rate := s.sum / T
  let terms := (s.zip o).filterMap (fun p =>
    if p.1 / p.2 ≠ 0 then some (p.2 / T * (p.1 / p.2) * lg (p.1 / p.2 / rate)) else none)
  terms.sum / rate

/-- Elementwise scaling of a numpy value by a (positive) rational
constant: the finite payload is multiplied, the special values are kept.
For `0 < q` this agrees with `·.mul (NF.fin q)` and is the shape in which
the occupancy-rescaling argument is carried through the computation. -/
def NF.scale (q : ℚ) : NF → NF
  | fin x => fin (x * q)
  | pinf => pinf
  | ninf => ninf
  | nan => nan

/-- Squared Euclidean distance between two coordinate vectors, in exact
rational arithmetic (the componentwise differences squared and summed, as
inside `np.linalg.norm(np.array(p1) - np.array(p2))`). -/
def sqDist (p1 p2 : List ℚ) : ℚ :=
  ((p1.zip p2).map (fun c => (c.1 - c.2) ^ 2)).sum

/-- `compute_distance(p1, p2)` from `spiketools/spatial/position.py`
(line 40): the Euclidean norm of the coordinatewise difference.  Points
are coordinate vectors over exact rationals; the norm is the real square
root of the rational sum of squares. -/
noncomputable def compute_distance (p1 p2 : List ℚ) : ℝ :=
  Real.sqrt (sqDist p1 p2)

/-- The consecutive-pair distance vector filled by the loop of
`compute_distances` (lines 74-76): one distance per adjacent pair. -/
noncomputable def distancesList (position : List (List ℚ)) : List ℝ :=
  List.zipWith compute_distance position position.tail

/-- `compute_distances(position)` (lines 72-78).  The position sequence is
taken in the samples-major layout (one coordinate vector per time sample),
which is the layout the function's first line normalises to; the
orientation-resolution step itself (`check_array_orientation`, from a
module outside the sources under verification, described in spec §4.2) is
a pure layout disambiguation and is the identity on this layout.
`np.zeros(len(position) - 1)` raises on an empty input (negative
dimension), modelled as `none`; any nonempty input produces the
`len - 1` distances with no sample-count check. -/
noncomputable def compute_distances (position : List (List ℚ)) : Option (List ℝ) :=
  if position.length = 0 then none else some (distancesList position)

/-- `np.cumsum` over a 1d array: entry `i` is the sum of the first `i + 1`
input entries. -/
def cumsum (l : List ℝ) : List ℝ :=
  (List.range l.length).map (fun i => (l.take (i + 1)).sum)

/-- `compute_cumulative_distances(position)` (line 110): the running sum
of `compute_distances`. -/
noncomputable def compute_cumulative_distances (position : List (List ℚ)) :
    Option (List ℝ) :=
  (compute_distances position).map cumsum

/-- `compute_distances_to_location(position, location)` (lines 130-136):
the distance from every sample to the fixed reference location.  Always
returns one entry per sample (`np.zeros(len(position))` accepts any
length, including zero). -/
noncomputable def compute_distances_to_location (position : List (List ℚ))
    (location : List ℚ) : List ℝ :=
  position.map (fun p => compute_distance p location)

/-- A numpy floating-point speed value: a finite real, `+inf`, `-inf` or
`NaN`.  The payload is real because it is a distance (a square root)
divided by a duration. -/
inductive SV where
  | fin (x : ℝ)
  | pinf
  | ninf
  | nan

open Classical in
/-- One elementwise numpy float division `distance / duration`: a zero
duration yields `+inf` for a positive numerator, `-inf` for a negative
one and `NaN` for `0 / 0`; otherwise the exact quotient. -/
noncomputable def divSpeed (d : ℝ) (t : ℚ) : SV :=
  if t = 0 then (if 0 < d then SV.pinf else if d < 0 then SV.ninf else SV.nan)
  else SV.fin (d / (t : ℝ))

/-- The numpy division `distances / bin_times` of two 1d arrays,
including shape broadcasting: equal lengths divide elementwise, a
length-1 operand broadcasts against the other, and any other length
combination raises a broadcast `ValueError`, modelled as `none`. -/
noncomputable def npDivide (ds : List ℝ) (ts : List ℚ) : Option (List SV) :=
  if ds.length = ts.length then some (List.zipWith divSpeed ds ts)
  else if ts.length = 1 then some (ds.map (fun d => divSpeed d ts.headI))
  else if ds.length = 1 then some (ts.map (fun t => divSpeed ds.headI t))
  else none

/-- `compute_speed(position, bin_times)` (lines 172-175):
`compute_distances(position) / bin_times` with numpy array division. -/
noncomputable def compute_speed (position : List (List ℚ)) (bin_times : List ℚ) :
    Option (List SV) :=
  (compute_distances position).bind (fun ds => npDivide ds bin_times)

/-! ### Lemmas about the numpy value model -/

namespace NF

@[simp] theorem fin_ne_pinf (x : ℚ) : (fin x = pinf) = False :=
  eq_false (fun h => NF.noConfusion h)

@[simp] theorem fin_ne_ninf (x : ℚ) : (fin x = ninf) = False :=
  eq_false (fun h => NF.noConfusion h)

@[simp] theorem fin_ne_nan (x : ℚ) : (fin x = nan) = False :=
  eq_false (fun h => NF.noConfusion h)

@[simp] theorem pinf_ne_fin (x : ℚ) : (pinf = fin x) = False :=
  eq_false (fun h => NF.noConfusion h)

@[simp] theorem ninf_ne_fin (x : ℚ) : (ninf = fin x) = False :=
  eq_false (fun h => NF.noConfusion h)

@[simp] theorem nan_ne_fin (x : ℚ) : (nan = fin x) = False :=
  eq_false (fun h => NF.noConfusion h)

@[simp] theorem pinf_ne_ninf : (pinf = ninf) = False :=
  eq_false (fun h => NF.noConfusion h)

@[simp] theorem pinf_ne_nan : (pinf = nan) = False :=
  eq_false (fun h => NF.noConfusion h)

@[simp] theorem ninf_ne_pinf : (ninf = pinf) = False :=
  eq_false (fun h => NF.noConfusion h)

@[simp] theorem ninf_ne_nan : (ninf = nan) = False :=
  eq_false (fun h => NF.noConfusion h)

@[simp] theorem nan_ne_pinf : (nan = pinf) = False :=
  eq_false (fun h => NF.noConfusion h)

@[simp] theorem nan_ne_ninf : (nan = ninf) = False :=
  eq_false (fun h => NF.noConfusion h)

theorem nan_mul (v : NF) : nan.mul v = nan := by
  cases v <;> rfl

theorem add_fin_zero (v : NF) : v.add (fin 0) = v := by
  cases v <;> simp [add]

end NF

theorem nansumL_map_fin_aux (l : List ℚ) :
    ∀ q : ℚ, List.foldl (fun acc v => acc.add v.denan) (NF.fin q) (l.map NF.fin) =
      NF.fin (q + l.sum) := by
  induction l with
  | nil => intro q; simp [nansumL]
  | cons x xs ih =>
      intro q
      simp only [List.map_cons, List.foldl_cons, List.sum_cons]
      rw [show (NF.fin q).add (NF.fin x).denan = NF.fin (q + x) from rfl, ih]
      ring_nf

/-- `np.nansum` of an array of finite values is the finite exact sum. -/
theorem nansumL_map_fin (l : List ℚ) : nansumL (l.map NF.fin) = NF.fin l.sum := by
  unfold nansumL
  rw [nansumL_map_fin_aux]
  ring_nf

theorem nansumL_zero_aux (l : List NF) (h : ∀ v ∈ l, v.denan = NF.fin 0) :
    ∀ a : NF, List.foldl (fun acc v => acc.add v.denan) a l = a := by
  induction l with
  | nil => intro a; rfl
  | cons x xs ih =>
      intro a
      simp only [List.foldl_cons]
      rw [h x (by simp), NF.add_fin_zero]
      exact ih (fun v hv => h v (by simp [hv])) a

/-- `np.nansum` of an array whose entries are all `0.0` or all `NaN`
(more generally: each entry zero-or-NaN) is `0.0`. -/
theorem nansumL_zero (l : List NF) (h : ∀ v ∈ l, v.denan = NF.fin 0) :
    nansumL l = NF.fin 0 :=
  nansumL_zero_aux l h (NF.fin 0)

theorem nansumL_isFinite_aux (l : List NF)
    (h : ∀ v ∈ l, v.isFinite = true ∨ v = NF.nan) :
    ∀ q : ℚ, (List.foldl (fun acc v => acc.add v.denan) (NF.fin q) l).isFinite = true := by
  induction l with
  | nil => intro q; rfl
  | cons x xs ih =>
      intro q
      simp only [List.foldl_cons]
      have hx := h x (by simp)
      have hxs : ∀ v ∈ xs, v.isFinite = true ∨ v = NF.nan :=
        fun v hv => h v (by simp [hv])
      rcases hx with hfin | hnan
      · cases x with
        | fin y => exact ih hxs (q + y)
        | pinf => simp [NF.isFinite] at hfin
        | ninf => simp [NF.isFinite] at hfin
        | nan => simp [NF.isFinite] at hfin
      · subst hnan
        rw [show (NF.fin q).add NF.nan.denan = NF.fin (q + 0) from rfl]
        exact ih hxs (q + 0)

/-- `np.nansum` of an array whose entries are finite or NaN is finite:
the NaN entries are skipped and the rest add exactly. -/
theorem nansumL_isFinite (l : List NF)
    (h : ∀ v ∈ l, v.isFinite = true ∨ v = NF.nan) :
    (nansumL l).isFinite = true :=
  nansumL_isFinite_aux l h 0

/-- `0.0 / T = 0.0` whenever the total `T` is neither `0.0` nor NaN. -/
theorem zero_div_nf (T : NF) (h0 : T ≠ NF.fin 0) (hn : T ≠ NF.nan) :
    (NF.fin 0).div T = NF.fin 0 := by
  cases T with
  | fin t =>
      have ht : t ≠ 0 := by
        intro h; exact h0 (by rw [h])
      simp [NF.div, ht]
  | pinf => rfl
  | ninf => rfl
  | nan => exact absurd rfl hn

/-! ### C3: all-zero spike map -/

/-- C3 (amended): an all-zero spike map gives spatial information exactly
`0.0` for every occupancy whose NaN-ignoring total is neither `0.0` nor
NaN: the mean rate is then `0 / T = 0.0` and the zero-rate short-circuit
returns `0.0` immediately.  (The claim's "for any occupancy" fails when
the occupancy total is zero — see the counterexample — because the rate
is then `0/0 = NaN`, which does not compare equal to `0.0`.) -/
theorem information_zero_spike_map (lg : ℚ → ℚ) (spike_map occupancy : List NF)
    (hs : ∀ v ∈ spike_map, v = NF.fin 0)
    (h0 : nansumL occupancy ≠ NF.fin 0) (hn : nansumL occupancy ≠ NF.nan) :
    computeSpatialInformation lg spike_map occupancy = NF.fin 0 := by
  have hS : nansumL spike_map = NF.fin 0 :=
    nansumL_zero _ (fun v hv => by rw [hs v hv]; rfl)
  simp only [computeSpatialInformation, hS, zero_div_nf _ h0 hn]
  simp

/-- C3 counterexample: the all-zero spike map `[0.]` with occupancy `[0.]`
(an occupancy of the same shape) makes the routine return NaN, not the
claimed `0.0`: the rate is `0/0 = NaN`, the short-circuit is skipped, and
the final division is `0.0 / NaN = NaN`. -/
theorem information_zero_spike_zero_occ_nan :
    computeSpatialInformation (fun _ => 0) [NF.fin 0] [NF.fin 0] = NF.nan ∧
      computeSpatialInformation (fun _ => 0) [NF.fin 0] [NF.fin 0] ≠ NF.fin 0 := by
  have h : computeSpatialInformation (fun _ => 0) [NF.fin 0] [NF.fin 0] = NF.nan := by
    norm_num [computeSpatialInformation, infoTerms, nansumL, NF.div, NF.mul, NF.add,
      NF.log2, NF.nonzero, NF.denan, List.filterMap_cons, List.zip]
  exact ⟨h, by rw [h]; simp⟩

/-- Witness for `information_zero_spike_map`: spike map `[0.]`, occupancy
`[2.]`. -/
theorem information_zero_spike_map_witness :
    nansumL [NF.fin 2] ≠ NF.fin 0 ∧
      computeSpatialInformation (fun _ => 0) [NF.fin 0] [NF.fin 2] = NF.fin 0 := by
  have h0 : nansumL [NF.fin 2] ≠ NF.fin 0 := by
    norm_num [nansumL, NF.add, NF.denan]
  have hn : nansumL [NF.fin 2] ≠ NF.nan := by
    norm_num [nansumL, NF.add, NF.denan]
  exact ⟨h0, information_zero_spike_map _ _ _ (by simp) h0 hn⟩

/-! ### C2: positive spikes, all-zero occupancy -/

/-- C2 (amended): a spike map with positive total spike count and an
all-zero occupancy of the same shape makes the routine silently return
the ordinary finite number `0.0` — not NaN and not an error.  The rate is
`S / 0 = +inf` (not `0/0 = NaN` as the spec reasons), every per-bin
contribution is NaN (`occ_prob = 0/0 = NaN`), `np.nansum` drops them all
to `0.0`, and `0.0 / inf = 0.0`. -/
theorem information_positive_spike_all_zero_occ (lg : ℚ → ℚ) (s : List ℚ)
    (occupancy : List NF)
    (hs : ∀ x ∈ s, 0 ≤ x) (hS : 0 < s.sum)
    (hlen : s.length = occupancy.length)
    (ho : ∀ v ∈ occupancy, v = NF.fin 0) :
    computeSpatialInformation lg (s.map NF.fin) occupancy = NF.fin 0 := by
  have hT : nansumL occupancy = NF.fin 0 :=
    nansumL_zero _ (fun v hv => by rw [ho v hv]; rfl)
  have hSsum : nansumL (s.map NF.fin) = NF.fin s.sum := nansumL_map_fin s
  have hrate : (NF.fin s.sum).div (NF.fin 0) = NF.pinf := by
    simp [NF.div, hS]
  simp only [computeSpatialInformation, hT, hSsum, hrate]
  rw [if_neg (by simp)]
  have hterms : ∀ t ∈ infoTerms lg NF.pinf (NF.fin 0) ((s.map NF.fin).zip occupancy),
      t = NF.nan := by
    intro t ht
    simp only [infoTerms, List.mem_filterMap] at ht
    obtain ⟨p, hp, hpt⟩ := ht
    have hp2 : p.2 = NF.fin 0 := ho _ (List.of_mem_zip hp).2
    rw [hp2] at hpt
    have hop : (NF.fin 0).div (NF.fin 0) = NF.nan := by simp [NF.div]
    rw [hop, NF.nan_mul, NF.nan_mul] at hpt
    split at hpt
    · exact (Option.some.inj hpt).symm
    · exact absurd hpt (by simp)
  have hzero : nansumL (infoTerms lg NF.pinf (NF.fin 0) ((s.map NF.fin).zip occupancy)) =
      NF.fin 0 :=
    nansumL_zero _ (fun v hv => by rw [hterms v hv]; rfl)
  rw [hzero]
  rfl

/-- C2 counterexample: spike map `[1.]` (positive total) with all-zero
occupancy `[0.]`: the routine returns the plain finite value `0.0`, so no
NaN propagates to the caller and no error is raised. -/
theorem information_positive_spike_zero_occ_counterexample :
    computeSpatialInformation (fun _ => 0) [NF.fin 1] [NF.fin 0] = NF.fin 0 ∧
      (computeSpatialInformation (fun _ => 0) [NF.fin 1] [NF.fin 0]).isNan = false := by
  have h : computeSpatialInformation (fun _ => 0) [NF.fin 1] [NF.fin 0] = NF.fin 0 := by
    norm_num [computeSpatialInformation, infoTerms, nansumL, NF.div, NF.mul, NF.add,
      NF.log2, NF.nonzero, NF.denan, List.filterMap_cons, List.zip]
  exact ⟨h, by rw [h]; rfl⟩

/-- Witness for `information_positive_spike_all_zero_occ`: spike map
`[1.]`, occupancy `[0.]`. -/
theorem information_positive_spike_all_zero_occ_witness :
    0 < ([1] : List ℚ).sum ∧
      computeSpatialInformation (fun _ => 0) (([1] : List ℚ).map NF.fin) [NF.fin 0] =
        NF.fin 0 := by
  refine ⟨by norm_num, ?_⟩
  exact information_positive_spike_all_zero_occ _ _ _
    (by norm_num) (by norm_num) (by simp) (by simp)

/-! ### C1: zero-occupancy bins do not corrupt the result -/

/-- C1: for finite nonnegative spike and occupancy maps of the same shape
with positive total occupancy and nonzero mean rate, the spatial
information is a finite number even when some occupancy bins are zero:
the non-finite elementwise ratios at unvisited bins turn into NaN
contributions, which `np.nansum` drops, so no NaN or infinity reaches the
returned scalar. -/
theorem information_finite_over_unvisited_bins (lg : ℚ → ℚ) (s o : List ℚ)
    (hlen : s.length = o.length)
    (hs : ∀ x ∈ s, 0 ≤ x) (ho : ∀ x ∈ o, 0 ≤ x)
    (hT : 0 < o.sum) (hS : s.sum ≠ 0)
    (hz : ∃ x ∈ o, x = 0) :
    (computeSpatialInformation lg (s.map NF.fin) (o.map NF.fin)).isFinite = true := by
  have hSpos : 0 < s.sum := lt_of_le_of_ne (List.sum_nonneg hs) (Ne.symm hS)
  have hTne : o.sum ≠ 0 := ne_of_gt hT
  have hr : (0 : ℚ) < s.sum / o.sum := div_pos hSpos hT
  have hrne : s.sum / o.sum ≠ 0 := ne_of_gt hr
  have hrate : (NF.fin s.sum).div (NF.fin o.sum) = NF.fin (s.sum / o.sum) := by
    simp [NF.div, hTne]
  simp only [computeSpatialInformation, nansumL_map_fin, hrate]
  rw [if_neg (by simp [hrne])]
  have hterms : ∀ t ∈ infoTerms lg (NF.fin (s.sum / o.sum)) (NF.fin o.sum)
      ((s.map NF.fin).zip (o.map NF.fin)), t.isFinite = true ∨ t = NF.nan := by
    intro t ht
    simp only [infoTerms, List.mem_filterMap] at ht
    obtain ⟨p, hp, hpt⟩ := ht
    obtain ⟨si, hsi, hsi'⟩ := List.mem_map.mp (List.of_mem_zip hp).1
    obtain ⟨oi, hoi, hoi'⟩ := List.mem_map.mp (List.of_mem_zip hp).2
    have hsi0 : 0 ≤ si := hs si hsi
    have hoi0 : 0 ≤ oi := ho oi hoi
    rw [← hsi', ← hoi'] at hpt
    by_cases hoz : oi = 0
    · subst hoz
      by_cases hsz : si = 0
      · subst hsz
        simp only [NF.div, NF.mul, NF.log2, NF.nonzero, hTne] at hpt
        norm_num at hpt
        exact Or.inr hpt.symm
      · have hspos : 0 < si := lt_of_le_of_ne hsi0 (Ne.symm hsz)
        simp only [NF.div, NF.mul, NF.log2, NF.nonzero] at hpt
        norm_num [hTne, hspos] at hpt
        exact Or.inr hpt.symm
    · have hoipos : 0 < oi := lt_of_le_of_ne hoi0 (Ne.symm hoz)
      by_cases hnz : si / oi = 0
      · norm_num [NF.div, NF.nonzero, hoz, hnz] at hpt
        exact Option.noConfusion hpt
      · have hnrpos : 0 < si / oi :=
          lt_of_le_of_ne (div_nonneg hsi0 hoi0) (Ne.symm hnz)
        have hq : 0 < si / oi / (s.sum / o.sum) := div_pos hnrpos hr
        norm_num [NF.div, NF.mul, NF.log2, NF.nonzero, hoz, hTne, hrne, hnz, hq] at hpt
        exact Or.inl (by rw [← hpt]; rfl)
  have hfin := nansumL_isFinite _ hterms
  cases hres : nansumL (infoTerms lg (NF.fin (s.sum / o.sum)) (NF.fin o.sum)
      ((s.map NF.fin).zip (o.map NF.fin))) with
  | fin x => simp [NF.div, NF.isFinite, hrne]
  | pinf => rw [hres] at hfin; exact absurd hfin (by simp [NF.isFinite])
  | ninf => rw [hres] at hfin; exact absurd hfin (by simp [NF.isFinite])
  | nan => rw [hres] at hfin; exact absurd hfin (by simp [NF.isFinite])

/-- Witness for `information_finite_over_unvisited_bins`: spike map
`[1., 1.]`, occupancy `[1., 0.]` (second bin unvisited). -/
theorem information_finite_over_unvisited_bins_witness :
    (∃ x ∈ ([1, 0] : List ℚ), x = 0) ∧
      (computeSpatialInformation (fun _ => 0) (([1, 1] : List ℚ).map NF.fin)
        (([1, 0] : List ℚ).map NF.fin)).isFinite = true := by
  refine ⟨⟨0, by norm_num⟩, ?_⟩
  exact information_finite_over_unvisited_bins _ _ _ (by norm_num)
    (by norm_num) (by norm_num) (by norm_num) (by norm_num) ⟨0, by norm_num⟩

/-! ### C4: agreement with the specification's Skaggs formula -/

/-- Total occupancy is positive when every bin is positively occupied and
the map is nonempty. -/
theorem sum_pos_of_forall_pos (o : List ℚ) (ho : ∀ x ∈ o, 0 < x) (hne : o ≠ []) :
    0 < o.sum := by
  cases o with
  | nil => exact absurd rfl hne
  | cons y ys =>
      have hy : 0 < y := ho y (by simp)
      have hys : 0 ≤ ys.sum := List.sum_nonneg (fun x hx => (ho x (by simp [hx])).le)
      rw [List.sum_cons]
      linarith

/-- C4: on an everywhere-positively-occupied map with nonnegative spike
counts and nonzero mean rate, `_compute_spatial_information` returns
exactly the specification's Skaggs sum: Σ over the bins of nonzero
normalised rate of `occ_prob · norm_rate · log2(norm_rate / rate)`,
divided by the rate, with `rate = Σspike / Σocc`, `occ_prob = occ / Σocc`
and `norm_rate = spike / occ` elementwise. -/
theorem information_eq_skaggs_spec (lg : ℚ → ℚ) (s o : List ℚ)
    (hlen : s.length = o.length)
    (hs : ∀ x ∈ s, 0 ≤ x) (ho : ∀ x ∈ o, 0 < x)
    (hS : s.sum ≠ 0) :
    computeSpatialInformation lg (s.map NF.fin) (o.map NF.fin) =
      NF.fin (skaggsInformationSpec lg s o) := by
  have hSpos : 0 < s.sum := lt_of_le_of_ne (List.sum_nonneg hs) (Ne.symm hS)
  have hsne : s ≠ [] := by
    intro h; rw [h] at hS; exact hS rfl
  have hone : o ≠ [] := by
    intro h
    rw [h, List.length_nil, List.length_eq_zero] at hlen
    exact hsne hlen
  have hTpos : 0 < o.sum := sum_pos_of_forall_pos o ho hone
  have hTne : o.sum ≠ 0 := ne_of_gt hTpos
  have hr : 0 < s.sum / o.sum := div_pos hSpos hTpos
  have hrne : s.sum / o.sum ≠ 0 := ne_of_gt hr
  have hrate : (NF.fin s.sum).div (NF.fin o.sum) = NF.fin (s.sum / o.sum) := by
    simp [NF.div, hTne]
  have hterms : infoTerms lg (NF.fin (s.sum / o.sum)) (NF.fin o.sum)
      ((s.map NF.fin).zip (o.map NF.fin)) =
      ((s.zip o).filterMap (fun p =>
        if p.1 / p.2 ≠ 0 then
          some (p.2 / o.sum * (p.1 / p.2) * lg (p.1 / p.2 / (s.sum / o.sum)))
        else none)).map NF.fin := by
    unfold infoTerms
    rw [List.zip_map, List.filterMap_map, List.map_filterMap]
    apply List.filterMap_congr
    intro p hp
    obtain ⟨hp1, hp2⟩ := List.of_mem_zip hp
    have ha : 0 ≤ p.1 := hs _ hp1
    have hb : 0 < p.2 := ho _ hp2
    have hbne : p.2 ≠ 0 := ne_of_gt hb
    by_cases hz : p.1 / p.2 = 0
    · simp [Function.comp, Prod.map, NF.div, NF.nonzero, hbne, hz]
    · have hq : 0 < p.1 / p.2 := lt_of_le_of_ne (div_nonneg ha hb.le) (Ne.symm hz)
      have hqr : 0 < p.1 / p.2 / (s.sum / o.sum) := div_pos hq hr
      simp [Function.comp, Prod.map, NF.div, NF.mul, NF.log2, NF.nonzero,
        hbne, hTne, hrne, hz, hqr]
  simp only [computeSpatialInformation, nansumL_map_fin, hrate]
  rw [if_neg (by simp [hrne]), hterms, nansumL_map_fin]
  simp only [skaggsInformationSpec]
  simp [NF.div, hrne]

/-- Witness for `information_eq_skaggs_spec`: spike map `[2., 0.]`,
occupancy `[1., 1.]`, where the Skaggs sum evaluates (with the abstract
log taken as the constant `37`) to `(1/2) · 2 · 37 / 1 = 37`. -/
theorem information_eq_skaggs_spec_witness :
    ([2, 0] : List ℚ).sum ≠ 0 ∧
      computeSpatialInformation (fun _ => 37) (([2, 0] : List ℚ).map NF.fin)
        (([1, 1] : List ℚ).map NF.fin) =
        NF.fin (skaggsInformationSpec (fun _ => 37) [2, 0] [1, 1]) := by
  refine ⟨by norm_num, ?_⟩
  exact information_eq_skaggs_spec _ _ _ (by norm_num) (by norm_num)
    (by norm_num) (by norm_num)

/-! ### C5: invariance under positive rescaling of the occupancy -/

theorem mul_pos_right_iff (x q : ℚ) (hq : 0 < q) : 0 < x * q ↔ 0 < x := by
  constructor
  · intro h
    by_contra hx
    push_neg at hx
    nlinarith
  · intro h
    exact mul_pos h hq

theorem mul_neg_right_iff (x q : ℚ) (hq : 0 < q) : x * q < 0 ↔ x < 0 := by
  constructor
  · intro h
    by_contra hx
    push_neg at hx
    nlinarith
  · intro h
    exact mul_neg_of_neg_of_pos h hq

theorem mul_nonneg_right_iff (x q : ℚ) (hq : 0 < q) : 0 ≤ x * q ↔ 0 ≤ x := by
  constructor
  · intro h
    by_contra hx
    push_neg at hx
    nlinarith
  · intro h
    exact mul_nonneg h hq.le

namespace NF

/-- Multiplying by the finite positive constant `c` is exactly the
`scale` map. -/
theorem mul_fin_pos_eq_scale (q : ℚ) (hq : 0 < q) (v : NF) :
    v.mul (fin q) = v.scale q := by
  cases v with
  | fin x => rfl
  | pinf => simp [mul, scale, hq]
  | ninf => simp [mul, scale, hq]
  | nan => rfl

theorem scale_add (q : ℚ) (a b : NF) :
    (a.scale q).add (b.scale q) = (a.add b).scale q := by
  cases a <;> cases b <;> simp [add, scale] <;> ring

theorem scale_denan (q : ℚ) (v : NF) :
    (v.scale q).denan = v.denan.scale q := by
  cases v <;> simp [denan, scale]

theorem scale_eq_fin_zero_iff (q : ℚ) (hq : q ≠ 0) (v : NF) :
    v.scale q = fin 0 ↔ v = fin 0 := by
  cases v <;> simp [scale, mul_eq_zero, hq]

theorem scale_nonzero (q : ℚ) (hq : q ≠ 0) (v : NF) :
    (v.scale q).nonzero = v.nonzero := by
  cases v with
  | fin x =>
      by_cases hx : x = 0
      · simp [scale, nonzero, hx]
      · simp [scale, nonzero, hx, mul_eq_zero, hq]
  | pinf => rfl
  | ninf => rfl
  | nan => rfl

theorem scale_div_scale (q : ℚ) (hq : 0 < q) (a b : NF) :
    (a.scale q).div (b.scale q) = a.div b := by
  have hqne : q ≠ 0 := ne_of_gt hq
  cases a with
  | fin x =>
      cases b with
      | fin y =>
          rcases eq_or_ne y 0 with hy | hy
          · subst hy
            simp [div, scale, mul_pos_right_iff x q hq, mul_neg_right_iff x q hq]
          · have hyq : y * q ≠ 0 := mul_ne_zero hy hqne
            simp [div, scale, hy, hyq, mul_div_mul_right x y hqne]
      | pinf => rfl
      | ninf => rfl
      | nan => rfl
  | pinf =>
      cases b with
      | fin y => simp [div, scale, mul_nonneg_right_iff y q hq]
      | pinf => rfl
      | ninf => rfl
      | nan => rfl
  | ninf =>
      cases b with
      | fin y => simp [div, scale, mul_nonneg_right_iff y q hq]
      | pinf => rfl
      | ninf => rfl
      | nan => rfl
  | nan => cases b <;> rfl

theorem div_scale (q : ℚ) (hq : 0 < q) (a b : NF) :
    a.div (b.scale q) = (a.div b).scale q⁻¹ := by
  have hqne : q ≠ 0 := ne_of_gt hq
  cases a with
  | fin x =>
      cases b with
      | fin y =>
          rcases eq_or_ne y 0 with hy | hy
          · subst hy
            by_cases hx : 0 < x
            · simp [div, scale, hx]
            · by_cases hx' : x < 0
              · simp [div, scale, hx, hx']
              · simp [div, scale, hx, hx']
          · have hyq : y * q ≠ 0 := mul_ne_zero hy hqne
            simp only [div, scale, hy, hyq, if_false]
            congr 1
            rw [← div_eq_mul_inv, div_div]
      | pinf => simp [div, scale]
      | ninf => simp [div, scale]
      | nan => rfl
  | pinf =>
      cases b with
      | fin y =>
          by_cases hy : 0 ≤ y
          · simp [div, scale, hy, mul_nonneg_right_iff y q hq]
          · simp [div, scale, hy, mul_nonneg_right_iff y q hq]
      | pinf => rfl
      | ninf => rfl
      | nan => rfl
  | ninf =>
      cases b with
      | fin y =>
          by_cases hy : 0 ≤ y
          · simp [div, scale, hy, mul_nonneg_right_iff y q hq]
          · simp [div, scale, hy, mul_nonneg_right_iff y q hq]
      | pinf => rfl
      | ninf => rfl
      | nan => rfl
  | nan => cases b <;> rfl

theorem scale_mul (q : ℚ) (hq : 0 < q) (a b : NF) :
    (a.scale q).mul b = (a.mul b).scale q := by
  cases a with
  | fin x =>
      cases b with
      | fin y => simp [mul, scale]; ring
      | pinf =>
          by_cases hx : 0 < x
          · simp [mul, scale, hx, mul_pos_right_iff x q hq]
          · by_cases hx' : x < 0
            · simp [mul, scale, hx, hx', mul_pos_right_iff x q hq,
                mul_neg_right_iff x q hq]
            · simp [mul, scale, hx, hx', mul_pos_right_iff x q hq,
                mul_neg_right_iff x q hq]
      | ninf =>
          by_cases hx : 0 < x
          · simp [mul, scale, hx, mul_pos_right_iff x q hq]
          · by_cases hx' : x < 0
            · simp [mul, scale, hx, hx', mul_pos_right_iff x q hq,
                mul_neg_right_iff x q hq]
            · simp [mul, scale, hx, hx', mul_pos_right_iff x q hq,
                mul_neg_right_iff x q hq]
      | nan => rfl
  | pinf =>
      cases b with
      | fin y => by_cases hy : 0 < y <;> by_cases hy' : y < 0 <;> simp [mul, scale, hy, hy']
      | pinf => rfl
      | ninf => rfl
      | nan => rfl
  | ninf =>
      cases b with
      | fin y => by_cases hy : 0 < y <;> by_cases hy' : y < 0 <;> simp [mul, scale, hy, hy']
      | pinf => rfl
      | ninf => rfl
      | nan => rfl
  | nan => cases b <;> rfl

theorem mul_scale (q : ℚ) (hq : 0 < q) (a b : NF) :
    a.mul (b.scale q) = (a.mul b).scale q := by
  cases a with
  | fin x =>
      cases b with
      | fin y => simp [mul, scale]; ring
      | pinf => by_cases hx : 0 < x <;> by_cases hx' : x < 0 <;> simp [mul, scale, hx, hx']
      | ninf => by_cases hx : 0 < x <;> by_cases hx' : x < 0 <;> simp [mul, scale, hx, hx']
      | nan => rfl
  | pinf =>
      cases b with
      | fin y =>
          by_cases hy : 0 < y
          · simp [mul, scale, hy, mul_pos_right_iff y q hq]
          · by_cases hy' : y < 0
            · simp [mul, scale, hy, hy', mul_pos_right_iff y q hq,
                mul_neg_right_iff y q hq]
            · simp [mul, scale, hy, hy', mul_pos_right_iff y q hq,
                mul_neg_right_iff y q hq]
      | pinf => rfl
      | ninf => rfl
      | nan => rfl
  | ninf =>
      cases b with
      | fin y =>
          by_cases hy : 0 < y
          · simp [mul, scale, hy, mul_pos_right_iff y q hq]
          · by_cases hy' : y < 0
            · simp [mul, scale, hy, hy', mul_pos_right_iff y q hq,
                mul_neg_right_iff y q hq]
            · simp [mul, scale, hy, hy', mul_pos_right_iff y q hq,
                mul_neg_right_iff y q hq]
      | pinf => rfl
      | ninf => rfl
      | nan => rfl
  | nan => cases b <;> rfl

end NF

theorem nansumL_scale_aux (q : ℚ) (l : List NF) :
    ∀ a : NF, List.foldl (fun acc v => acc.add v.denan) (a.scale q) (l.map (NF.scale q)) =
      (List.foldl (fun acc v => acc.add v.denan) a l).scale q := by
  induction l with
  | nil => intro a; rfl
  | cons x xs ih =>
      intro a
      simp only [List.map_cons, List.foldl_cons]
      rw [NF.scale_denan, NF.scale_add, ih]

/-- `np.nansum` commutes with elementwise scaling. -/
theorem nansumL_scale (q : ℚ) (l : List NF) :
    nansumL (l.map (NF.scale q)) = (nansumL l).scale q := by
  unfold nansumL
  have h0 : NF.fin 0 = (NF.fin 0).scale q := by simp [NF.scale]
  rw [h0, nansumL_scale_aux]
  simp [NF.scale]

/-- C5: spatial information is invariant under scaling the occupancy map
elementwise by any positive constant `c`, for every spike map and every
occupancy array (special values included): every occupancy-dependent
quantity enters the Skaggs computation only through ratios, and the
masking and NaN conventions are preserved by the rescaling. -/
theorem information_occupancy_scale_invariant (lg : ℚ → ℚ)
    (spike_map occupancy : List NF) (c : ℚ) (hc : 0 < c) :
    computeSpatialInformation lg spike_map (occupancy.map (fun v => v.mul (NF.fin c))) =
      computeSpatialInformation lg spike_map occupancy := by
  have hcne : c ≠ 0 := ne_of_gt hc
  have hcinv : (0 : ℚ) < c⁻¹ := inv_pos.mpr hc
  have hcinvne : c⁻¹ ≠ 0 := ne_of_gt hcinv
  have hmap : occupancy.map (fun v => v.mul (NF.fin c)) = occupancy.map (NF.scale c) :=
    List.map_congr_left (fun v _ => NF.mul_fin_pos_eq_scale c hc v)
  rw [hmap]
  simp only [computeSpatialInformation, nansumL_scale]
  rw [NF.div_scale c hc]
  by_cases hz : (nansumL spike_map).div (nansumL occupancy) = NF.fin 0
  · rw [hz]
    simp [NF.scale]
  · rw [if_neg (fun h => hz ((NF.scale_eq_fin_zero_iff c⁻¹ hcinvne _).mp h)), if_neg hz]
    have hterms : infoTerms lg (((nansumL spike_map).div (nansumL occupancy)).scale c⁻¹)
        ((nansumL occupancy).scale c) (spike_map.zip (occupancy.map (NF.scale c))) =
        (infoTerms lg ((nansumL spike_map).div (nansumL occupancy)) (nansumL occupancy)
          (spike_map.zip occupancy)).map (NF.scale c⁻¹) := by
      unfold infoTerms
      rw [List.zip_map_right, List.filterMap_map, List.map_filterMap]
      apply List.filterMap_congr
      intro p hp
      simp only [Function.comp, Prod.map, id_eq]
      rw [NF.div_scale c hc, NF.scale_div_scale c hc, NF.scale_nonzero c⁻¹ hcinvne,
        NF.scale_div_scale c⁻¹ hcinv, NF.mul_scale c⁻¹ hcinv, NF.scale_mul c⁻¹ hcinv]
      by_cases hm : (p.1.div p.2).nonzero = true
      · simp [hm]
      · simp [hm]
    rw [hterms, nansumL_scale, NF.scale_div_scale c⁻¹ hcinv]

/-- Witness for `information_occupancy_scale_invariant`: spike map
`[1., 0.]`, occupancy `[1., 2.]`, scaling constant `3`. -/
theorem information_occupancy_scale_invariant_witness :
    (0 : ℚ) < 3 ∧
      computeSpatialInformation (fun _ => 0) [NF.fin 1, NF.fin 0]
        ([NF.fin 1, NF.fin 2].map (fun v => v.mul (NF.fin 3))) =
      computeSpatialInformation (fun _ => 0) [NF.fin 1, NF.fin 0] [NF.fin 1, NF.fin 2] :=
  ⟨by norm_num, information_occupancy_scale_invariant _ _ _ 3 (by norm_num)⟩

/-! ### Kinematics: distances, cumulative distances, speed -/

/-- Every pairwise Euclidean distance is nonnegative. -/
theorem compute_distance_nonneg (p1 p2 : List ℚ) : 0 ≤ compute_distance p1 p2 :=
  Real.sqrt_nonneg _

theorem zipWith_distance_nonneg :
    ∀ (l1 l2 : List (List ℚ)), ∀ d ∈ List.zipWith compute_distance l1 l2, 0 ≤ d := by
  intro l1
  induction l1 with
  | nil => intro l2 d hd; simp at hd
  | cons p ps ih =>
      intro l2 d hd
      cases l2 with
      | nil => simp at hd
      | cons q qs =>
          rw [List.zipWith_cons_cons] at hd
          rcases List.mem_cons.mp hd with h | h
          · rw [h]; exact compute_distance_nonneg p q
          · exact ih qs d h

/-- The distance vector has one entry per consecutive pair. -/
theorem distancesList_length (position : List (List ℚ)) :
    (distancesList position).length = position.length - 1 := by
  unfold distancesList
  rw [List.length_zipWith, List.length_tail]
  omega

theorem distancesList_nonneg (position : List (List ℚ)) :
    ∀ d ∈ distancesList position, 0 ≤ d :=
  zipWith_distance_nonneg position position.tail

/-! ### C6: behaviour of `compute_distances` on short inputs -/

/-- C6 (amended): `compute_distances` performs no sample-count check and
never reports `InsufficientSamples`; the only failing input is the empty
sequence, where `np.zeros(len(position) - 1)` receives a negative size
and numpy raises.  Any nonempty sequence — including a single sample —
produces a result. -/
theorem compute_distances_failure_policy (position : List (List ℚ)) :
    compute_distances position = none ↔ position.length = 0 := by
  unfold compute_distances
  split
  · simp [*]
  · simp [*]

/-- C6 counterexample: a single-sample sequence (`n = 1 < 2`) does not
fail — it silently returns the empty distance vector. -/
theorem compute_distances_single_sample_succeeds :
    compute_distances [[(1 : ℚ)]] = some [] ∧
      (compute_distances [[(1 : ℚ)]]).isSome = true := by
  constructor <;> rfl

/-! ### C9: output lengths and nonnegativity -/

/-- C9: for a sequence of at least two samples and a reference location of
matching dimensionality, `compute_distances` succeeds with exactly
`n - 1` nonnegative distances, and `compute_distances_to_location`
returns exactly `n` nonnegative distances. -/
theorem distances_lengths_and_nonneg (position : List (List ℚ)) (location : List ℚ)
    (h2 : 2 ≤ position.length)
    (hdim : ∀ p ∈ position, p.length = location.length) :
    compute_distances position = some (distancesList position) ∧
      (distancesList position).length = position.length - 1 ∧
      (∀ d ∈ distancesList position, 0 ≤ d) ∧
      (compute_distances_to_location position location).length = position.length ∧
      (∀ d ∈ compute_distances_to_location position location, 0 ≤ d) := by
  refine ⟨?_, distancesList_length position, distancesList_nonneg position, ?_, ?_⟩
  · unfold compute_distances
    rw [if_neg (by omega)]
  · unfold compute_distances_to_location
    rw [List.length_map]
  · intro d hd
    unfold compute_distances_to_location at hd
    obtain ⟨p, _, hp⟩ := List.mem_map.mp hd
    rw [← hp]
    exact compute_distance_nonneg p location

/-- Witness for `distances_lengths_and_nonneg`: the three 1d samples
`[1.], [2.], [4.]` with reference location `[5.]`. -/
theorem distances_lengths_and_nonneg_witness :
    2 ≤ ([[1], [2], [4]] : List (List ℚ)).length ∧
      (compute_distances [[(1 : ℚ)], [2], [4]] =
          some (distancesList [[(1 : ℚ)], [2], [4]]) ∧
        (distancesList [[(1 : ℚ)], [2], [4]]).length =
          ([[1], [2], [4]] : List (List ℚ)).length - 1 ∧
        (∀ d ∈ distancesList [[(1 : ℚ)], [2], [4]], 0 ≤ d) ∧
        (compute_distances_to_location [[(1 : ℚ)], [2], [4]] [5]).length =
          ([[1], [2], [4]] : List (List ℚ)).length ∧
        (∀ d ∈ compute_distances_to_location [[(1 : ℚ)], [2], [4]] [5], 0 ≤ d)) := by
  refine ⟨by norm_num, ?_⟩
  exact distances_lengths_and_nonneg _ _ (by norm_num) (by simp)

/-! ### C10: cumulative distances are monotone -/

@[simp] theorem cumsum_length (l : List ℝ) : (cumsum l).length = l.length := by
  simp [cumsum]

theorem cumsum_get (l : List ℝ) (i : ℕ) (hi : i < (cumsum l).length) :
    (cumsum l).get ⟨i, hi⟩ = (l.take (i + 1)).sum := by
  simp [cumsum]

/-- A prefix-sum of nonnegative entries is monotonically non-decreasing. -/
theorem cumsum_monotone (l : List ℝ) (h : ∀ x ∈ l, 0 ≤ x)
    (i : ℕ) (hi : i + 1 < (cumsum l).length) :
    (cumsum l).get ⟨i, Nat.lt_of_succ_lt hi⟩ ≤ (cumsum l).get ⟨i + 1, hi⟩ := by
  rw [cumsum_get, cumsum_get]
  have hi' : i + 1 < l.length := by
    rw [cumsum_length] at hi
    exact hi
  rw [List.take_succ (l := l) (n := i + 1), List.sum_append]
  have hmem : l[i + 1] ∈ l := List.getElem_mem hi'
  have h1 : l[i + 1]? = some l[i + 1] := List.getElem?_eq_getElem hi'
  have h2 : (0 : ℝ) ≤ (l[i + 1]?.toList).sum := by
    rw [h1]
    simpa using h _ hmem
  linarith

/-- C10: for every position sequence of at least two samples, the output
of `compute_cumulative_distances` is monotonically non-decreasing: it is
the prefix-sum of the nonnegative consecutive Euclidean distances. -/
theorem cumulative_distances_monotone (position : List (List ℚ))
    (h2 : 2 ≤ position.length) :
    compute_cumulative_distances position = some (cumsum (distancesList position)) ∧
      ∀ i (hi : i + 1 < (cumsum (distancesList position)).length),
        (cumsum (distancesList position)).get ⟨i, Nat.lt_of_succ_lt hi⟩ ≤
          (cumsum (distancesList position)).get ⟨i + 1, hi⟩ := by
  constructor
  · unfold compute_cumulative_distances compute_distances
    rw [if_neg (by omega)]
    rfl
  · intro i hi
    exact cumsum_monotone _ (distancesList_nonneg position) i hi

/-- Witness for `cumulative_distances_monotone`: the four 1d samples
`[1.], [2.], [4.], [5.]`. -/
theorem cumulative_distances_monotone_witness :
    2 ≤ ([[1], [2], [4], [5]] : List (List ℚ)).length ∧
      (compute_cumulative_distances [[(1 : ℚ)], [2], [4], [5]] =
          some (cumsum (distancesList [[(1 : ℚ)], [2], [4], [5]])) ∧
        ∀ i (hi : i + 1 < (cumsum (distancesList [[(1 : ℚ)], [2], [4], [5]])).length),
          (cumsum (distancesList [[(1 : ℚ)], [2], [4], [5]])).get
              ⟨i, Nat.lt_of_succ_lt hi⟩ ≤
            (cumsum (distancesList [[(1 : ℚ)], [2], [4], [5]])).get ⟨i + 1, hi⟩) := by
  refine ⟨by norm_num, ?_⟩
  exact cumulative_distances_monotone _ (by norm_num)

/-! ### C7: zero durations in `compute_speed` -/

/-- C7 (amended): at an index with a zero duration (durations of matching
length `n - 1`), `compute_speed` never raises: numpy division produces
`+inf` there when the step distance is nonzero and `NaN` when the step
distance is zero. -/
theorem speed_zero_duration_inf_or_nan (position : List (List ℚ)) (bin_times : List ℚ)
    (h2 : 2 ≤ position.length)
    (hlen : bin_times.length = position.length - 1)
    (i : ℕ) (hi : i < bin_times.length)
    (hz : bin_times.get ⟨i, hi⟩ = 0) :
    ∃ ss, compute_speed position bin_times = some ss ∧
      ∃ hlt : i < ss.length,
        ss.get ⟨i, hlt⟩ = SV.pinf ∨ ss.get ⟨i, hlt⟩ = SV.nan := by
  have hds := distancesList_length position
  have hdist : compute_distances position = some (distancesList position) := by
    unfold compute_distances
    rw [if_neg (by omega)]
  have hlens : (distancesList position).length = bin_times.length := by
    rw [hds, hlen]
  refine ⟨List.zipWith divSpeed (distancesList position) bin_times, ?_, ?_⟩
  · have hstep : compute_speed position bin_times =
        npDivide (distancesList position) bin_times := by
      unfold compute_speed
      rw [hdist]
      rfl
    rw [hstep]
    unfold npDivide
    rw [if_pos hlens]
  · have hlt : i < (List.zipWith divSpeed (distancesList position) bin_times).length := by
      rw [List.length_zipWith]
      omega
    refine ⟨hlt, ?_⟩
    have hi1 : i < (distancesList position).length := by omega
    rw [List.get_eq_getElem, List.getElem_zipWith]
    have ht0 : bin_times[i] = 0 := by
      rw [← hz]
      rfl
    have hd0 : 0 ≤ (distancesList position)[i] :=
      distancesList_nonneg position _ (List.getElem_mem hi1)
    unfold divSpeed
    rw [if_pos ht0]
    rcases lt_or_eq_of_le hd0 with hd | hd
    · left
      rw [if_pos hd]
    · right
      rw [if_neg (by rw [← hd]; exact lt_irrefl 0),
        if_neg (by rw [← hd]; exact lt_irrefl 0)]

/-- C7 counterexample: the stationary pair `[1.], [1.]` with duration
`[0.]` produces neither an error nor infinity but `NaN` (`0 / 0`), a
third behaviour the claim rules out. -/
theorem speed_zero_duration_nan_counterexample :
    compute_speed [[(1 : ℚ)], [(1 : ℚ)]] [0] = some [SV.nan] ∧ SV.nan ≠ SV.pinf := by
  constructor
  · have hd : compute_distance [(1 : ℚ)] [(1 : ℚ)] = 0 := by
      norm_num [compute_distance, sqDist]
    have hstep : compute_speed [[(1 : ℚ)], [(1 : ℚ)]] [0] =
        npDivide (distancesList [[(1 : ℚ)], [(1 : ℚ)]]) [0] := rfl
    rw [hstep]
    unfold distancesList
    norm_num [npDivide, divSpeed, hd]
  · exact fun h => SV.noConfusion h

/-- Witness for `speed_zero_duration_inf_or_nan`: moving pair
`[1.], [2.]` with duration `[0.]`, at index 0. -/
theorem speed_zero_duration_inf_or_nan_witness :
    ([0] : List ℚ).length = ([[1], [2]] : List (List ℚ)).length - 1 ∧
      (∃ ss, compute_speed [[(1 : ℚ)], [2]] [0] = some ss ∧
        ∃ hlt : 0 < ss.length,
          ss.get ⟨0, hlt⟩ = SV.pinf ∨ ss.get ⟨0, hlt⟩ = SV.nan) := by
  refine ⟨by norm_num, ?_⟩
  exact speed_zero_duration_inf_or_nan _ _ (by norm_num) (by norm_num) 0
    (by norm_num) rfl

/-! ### C8: mismatched duration lengths in `compute_speed` -/

/-- C8 (amended): a duration vector whose length differs from `n - 1`
makes `compute_speed` fail with numpy's broadcast error only when neither
operand has length 1; when either the duration vector or the distance
vector has length 1, numpy broadcasting silently produces a result
instead. -/
theorem speed_length_mismatch_error (position : List (List ℚ)) (bin_times : List ℚ)
    (h2 : 2 ≤ position.length)
    (hne : bin_times.length ≠ position.length - 1)
    (ht1 : bin_times.length ≠ 1)
    (hd1 : position.length - 1 ≠ 1) :
    compute_speed position bin_times = none := by
  have hds := distancesList_length position
  have hdist : compute_distances position = some (distancesList position) := by
    unfold compute_distances
    rw [if_neg (by omega)]
  have hstep : compute_speed position bin_times =
      npDivide (distancesList position) bin_times := by
    unfold compute_speed
    rw [hdist]
    rfl
  rw [hstep]
  unfold npDivide
  rw [if_neg (by omega), if_neg ht1, if_neg (by omega)]

/-- C8 counterexample: three samples (`n - 1 = 2` distances) with the
length-1 duration vector `[2.]` — the lengths mismatch, yet numpy
broadcasting produces a speed vector instead of failing. -/
theorem speed_broadcast_counterexample :
    ([(2 : ℚ)] : List ℚ).length ≠ ([[1], [2], [3]] : List (List ℚ)).length - 1 ∧
      (compute_speed [[(1 : ℚ)], [2], [3]] [2]).isSome = true := by
  refine ⟨by norm_num, ?_⟩
  have hstep : compute_speed [[(1 : ℚ)], [2], [3]] [2] =
      npDivide (distancesList [[(1 : ℚ)], [2], [3]]) [2] := rfl
  rw [hstep]
  unfold npDivide
  rw [if_neg (by rw [distancesList_length]; norm_num)]
  simp

/-- Witness for `speed_length_mismatch_error`: four samples (`n - 1 = 3`)
with the length-2 duration vector `[1., 1.]`. -/
theorem speed_length_mismatch_error_witness :
    ([1, 1] : List ℚ).length ≠ ([[1], [2], [3], [4]] : List (List ℚ)).length - 1 ∧
      compute_speed [[(1 : ℚ)], [2], [3], [4]] [1, 1] = none := by
  refine ⟨by norm_num, ?_⟩
  exact speed_length_mismatch_error _ _ (by norm_num) (by norm_num)
    (by norm_num) (by norm_num)
